import Mathlib

/-!
# Verification of the toot-3d cross-thread core

Shallow embedding, in Lean, of the core subsystems of the toot-3d client:

* the `Retriever` network-request worker (`src/net/retriever.rs`),
* the `make_request` authorization / status-classification logic,
* the `WebImageCache` reference-counted image cache (`src/ui/image.rs`),
* the `LogicImgPool` GPU-resource id allocator (`src/ui/mod.rs`),
* the word-wrapping text layout (`src/ui/text.rs`),
* the render-thread mailbox drain (`Ui::iteration` in `src/ui/mod.rs`).

Rust machine floats (`f32`) used for text widths are modelled as exact
rationals; byte buffers as `List Nat`; shared mutable maps as association
lists; channels as lists in FIFO order.  External collaborators (curl,
the `url` crate, the image decoder, the font) are parameters of the
definitions; where a concrete instance is needed for a witness, a small
model faithful to the collaborator's documented behavior is supplied.
-/

namespace Toot3d

/-! ## Definitions: Retriever worker (src/net/retriever.rs) -/

/-- The `Method` enum in retriever.rs: a GET, or a POST with multipart form fields. -/
inductive Method where
  | get : Method
  | post (fields : List (String × List Nat)) : Method
deriving DecidableEq

/-- A `Request` in retriever.rs. -/
structure Request where
  method : Method
  url : String
deriving DecidableEq

/--
The retriever worker loop (`Retriever::new` in retriever.rs): a single
thread receives `(Request, Sender<Response>)` pairs from one FIFO queue
and, for each in order, performs the request and pushes the result into
that request's reply channel.  `f` abstracts performing one request;
channels are identified by `Nat` tags and modelled as the list of
responses delivered so far.
-/
def runWorker (f : Request → α) : List (Request × Nat) → (Nat → List α) → (Nat → List α)
  | [], chans => chans
  | (r, c) :: q, chans =>
      runWorker f q (fun c' => if c' = c then chans c ++ [f r] else chans c')

/--
Model of `Retriever::request` (retriever.rs lines 120-126): create one fresh reply
channel, enqueue every request of the batch tagged with it, in order.
The enqueued pairs are appended to the worker's queue.
-/
def requestBatch (queue : List (Request × Nat)) (batch : List Request) (c : Nat) :
    List (Request × Nat) :=
  queue ++ batch.map (fun r => (r, c))

/-! ## Definitions: make_request (src/net/retriever.rs lines 47-85) -/

/-- Error classification of one performed request (retriever.rs / curl.rs):
a URL-parse failure (`url::Url::from_str(..)?`), a transport failure
(`easy.perform()?`), or a non-success HTTP status (`HttpError(code)`). -/
inductive ReqError where
  | urlParse
  | transport
  | http (code : Nat)
deriving DecidableEq

/-- One answer of the transport collaborator: a transport failure, or a
status code together with the response body bytes. -/
abbrev TransportResult := Except Unit (Nat × List Nat)

instance {ε α : Type} [DecidableEq ε] [DecidableEq α] : DecidableEq (Except ε α) :=
  fun x y =>
    match x, y with
    | .ok a, .ok b =>
        if h : a = b then .isTrue (by rw [h])
        else .isFalse (fun hc => h (Except.ok.inj hc))
    | .error a, .error b =>
        if h : a = b then .isTrue (by rw [h])
        else .isFalse (fun hc => h (Except.error.inj hc))
    | .ok _, .error _ => .isFalse (fun hc => Except.noConfusion hc)
    | .error _, .ok _ => .isFalse (fun hc => Except.noConfusion hc)

/--
The bearer-authorization decision of `make_request` (retriever.rs lines
58-67): authorization is cleared, then set to the token exactly when the
token is non-empty and the parsed request URL has a domain equal to the
configured instance string.  `parse` abstracts `url::Url::from_str`
composed with `Url::domain`: `none` means the URL failed to parse (the
`?` operator then aborts the whole request), `some none` means it parsed
but has no domain (e.g. an IP-address host), `some (some d)` means its
domain is `d`.
-/
def bearerDecision (parse : String → Option (Option String))
    (instanceStr tokenStr url : String) : Except Unit (Option String) :=
  if tokenStr = "" then .ok none
  else
    match parse url with
    | none => .error ()
    | some none => .ok none
    | some (some d) => if d = instanceStr then .ok (some tokenStr) else .ok none

/-- Outcome of `make_request`: the returned `Response`, the authorization
the single perform call was issued with (`none` when the request was
never performed), and the unconsumed transport oracle (showing that at
most one transport attempt is made: no retry). -/
structure RequestOutcome where
  result : Except ReqError (List Nat)
  performedWith : Option (Option String)
  restOracle : List TransportResult
deriving DecidableEq

/--
Model of `make_request` (retriever.rs lines 47-85): decide authorization (a URL
parse failure aborts), perform the request once against the transport
oracle, then return the body on status exactly 200 and
`HttpError(status)` otherwise.  The oracle is the stream of answers the
transport would give to successive perform calls.
-/
def makeRequest (parse : String → Option (Option String))
    (oracle : List TransportResult) (instanceStr tokenStr url : String) :
    RequestOutcome :=
  match bearerDecision parse instanceStr tokenStr url with
  | .error _ => ⟨.error .urlParse, none, oracle⟩
  | .ok auth =>
      match oracle with
      | [] => ⟨.error .transport, some auth, []⟩
      | .error _ :: rest => ⟨.error .transport, some auth, rest⟩
      | .ok (status, body) :: rest =>
          ⟨if status = 200 then .ok body else .error (.http status), some auth, rest⟩

/--
Model of the external `url` crate on the URL shapes this program meets
(`Url::from_str` then `Url::domain`): an absolute `http(s)` URL parses
and its domain is the host part, a host that is an IPv4 address yields
no domain, and a scheme-less string fails to parse (the crate returns
`RelativeUrlWithoutBase`).  Used only to instantiate witnesses and
counterexamples at concrete URLs.
-/
def urlDomainModel (url : String) : Option (Option String) :=
  let cs := url.data
  let rest :=
    if cs.take 8 = "https://".data then some (cs.drop 8)
    else if cs.take 7 = "http://".data then some (cs.drop 7)
    else none
  match rest with
  | none => none
  | some r =>
      let host := r.takeWhile (fun c => c != '/' && c != ':' && c != '?' && c != '#')
      if host = [] then none
      else if host.all (fun c => c.isDigit || c == '.') then some none
      else some (some (String.mk host))

/-! ## Definitions: WebImageCache (src/ui/image.rs) -/

/-- First-match lookup in an association list, modelling
`HashMap<String, Arc<WebImage>>` access keyed by URL.  Entries carry the
id of the decoded image they reference. -/
def alookup : List (String × Nat) → String → Option Nat
  | [], _ => none
  | (v, e) :: rest, u => if v = u then some e else alookup rest u

/-- Removal of a key, modelling `HashMap::remove`
(`WebImageCache::remove`, image.rs lines 155-158). -/
def eraseKey : List (String × Nat) → String → List (String × Nat)
  | [], _ => []
  | (v, e) :: rest, u => if v = u then eraseKey rest u else (v, e) :: eraseKey rest u

/-- State of the `WebImageCache`: the cache map from URL to entry id, the
number of live external `CachedImage` handles per entry, and the next
fresh entry id (decoded entries are distinct `Arc` allocations). -/
structure CacheState where
  map : List (String × Nat)
  handles : Nat → Nat
  nextId : Nat

/-- The `Arc::strong_count` of the entry `e` whose url field is `u`, as seen
inside `CachedImage::drop` (image.rs line 82): one reference per cache
map slot holding this entry, plus one per live external handle (the
handle being dropped included — `Drop::drop` runs before the `Arc` field
is released). -/
def strongCount (s : CacheState) (u : String) (e : Nat) : Nat :=
  (if alookup s.map u = some e then 1 else 0) + s.handles e

/-- Model of `CachedImage::drop` (image.rs lines 79-91) for a handle on entry `e`
with url `u`: if the strong count is exactly two, tell the cache to
remove the map entry for `u`; then the handle's own reference goes away. -/
def dropHandle (s : CacheState) (u : String) (e : Nat) : CacheState :=
  let m := if strongCount s u e = 2 then eraseKey s.map u else s.map
  { map := m
    handles := fun e' => if e' = e then s.handles e - 1 else s.handles e'
    nextId := s.nextId }

/-- The request-building loop of `WebImageCache::get` (image.rs lines
116-127): walk the inputs in order and keep those URLs that are neither
cached nor already requested in this call (`added_requests`); `added` is
the set of URLs already requested. -/
def getMissesAux (m : List (String × Nat)) (added : List String) :
    List (String × Option Nat) → List (String × Option Nat)
  | [] => []
  | (u, d) :: rest =>
      if alookup m u = none ∧ ¬ u ∈ added then
        (u, d) :: getMissesAux m (u :: added) rest
      else getMissesAux m added rest

/-- The deduplicated miss list (`requests` / `request_info`) of one `get`
call: one entry per distinct uncached URL, in first-occurrence order. -/
def getMisses (m : List (String × Nat)) (images : List (String × Option Nat)) :
    List (String × Option Nat) :=
  getMissesAux m [] images

/-- Insertion of a freshly decoded entry (`entries.insert`, image.rs line
140); the URL is a miss, so it is not yet present and the pair is
appended with a fresh id. -/
def insertEntry (s : CacheState) (u : String) : CacheState :=
  { map := s.map ++ [(u, s.nextId)], handles := s.handles, nextId := s.nextId + 1 }

/-- The response loop of `WebImageCache::get` (image.rs lines 129-141):
for each miss in order, receive and decode; on the first fetch/decode
failure the `?` operator aborts the call, leaving the map as mutated so
far (`false`); otherwise insert the decoded entry and continue.
`fetchDecode` abstracts `responses.recv()?` plus `convert_image`. -/
def processMisses (fetchDecode : String → Option Nat → Bool) :
    CacheState → List (String × Option Nat) → CacheState × Bool
  | s, [] => (s, true)
  | s, (u, d) :: rest =>
      if fetchDecode u d then processMisses fetchDecode (insertEntry s u) rest
      else (s, false)

/-- Handle-count bump for the returned `CachedImage` handles: each handle
in the result clones the entry's `Arc` once. -/
def bumpHandles (h : Nat → Nat) (ids : List Nat) : Nat → Nat :=
  fun e => h e + ids.count e

/-- Model of `WebImageCache::get` (image.rs lines 106-153): build the deduplicated
miss list, fetch and decode each miss in order inserting into the shared
map, and — only if every miss succeeded — build the result by looking up
every input URL in the now-populated map, returning one `(url, entry)`
handle per input in input order.  On failure the partially updated state
is kept and no handles are returned. -/
def getRun (fetchDecode : String → Option Nat → Bool) (s₀ : CacheState)
    (images : List (String × Option Nat)) :
    CacheState × Option (List (String × Nat)) :=
  let misses := getMisses s₀.map images
  let step := processMisses fetchDecode s₀ misses
  if step.2 then
    let res := images.filterMap (fun p => (alookup step.1.map p.1).map (fun e => (p.1, e)))
    ({ step.1 with handles := bumpHandles step.1.handles (res.map (·.2)) }, some res)
  else (step.1, none)

/-! ## Definitions: LogicImgPool (src/ui/mod.rs lines 207-263) -/

/-- Pool-related mailbox traffic: `UiMsg::LoadImage(id, f)` and
`UiMsg::UnloadImage(id)` as sent by `alloc_box` and `dealloc`. -/
inductive PoolMsg where
  | load (id : Nat)
  | unload (id : Nat)
deriving DecidableEq

/-- State of `LogicImgPool` plus the handles it has issued: the
`used_ids` bit set, the ids of currently-live `OpaqueImg` handles, and
the messages sent to the render thread so far. -/
structure PoolState where
  used : Finset Nat
  live : List Nat
  msgs : List PoolMsg
deriving DecidableEq

/-- The id-search loop of `alloc_box` (`for i in 0.. { if
!used_ids.contains(i) { .. } }`): scan upward from `n` for the first id
not in `used`; the fuel makes the scan structurally terminating and is
chosen large enough that a free id is always found. -/
def firstFreeAux (s : Finset Nat) : Nat → Nat → Nat
  | 0, n => n
  | fuel + 1, n => if n ∈ s then firstFreeAux s fuel (n + 1) else n

/-- The lowest id not in `used` (first-fit, starting from 0). -/
def firstFree (s : Finset Nat) : Nat :=
  firstFreeAux s (s.card + 1) 0

/-- Model of `LogicImgPool::alloc_box` (src/ui/mod.rs lines 222-237): reserve the
lowest unused id, send a load-image message, and return a live handle
with that id. -/
def allocStep (s : PoolState) : PoolState × Nat :=
  let id := firstFree s.used
  ({ used := insert id s.used, live := s.live ++ [id], msgs := s.msgs ++ [.load id] }, id)

/-- Model of `OpaqueImg::drop` / `LogicImgPool::dealloc` (src/ui/mod.rs lines
246-263): remove the dropped handle's id from `used_ids` and send an
unload-image message.  Only a live handle can be dropped; dropping an id
with no live handle is a no-op of the model. -/
def dropStep (s : PoolState) (id : Nat) : PoolState :=
  if id ∈ s.live then
    { used := s.used.erase id, live := s.live.erase id, msgs := s.msgs ++ [.unload id] }
  else s

/-- Invariant tying live handles to the used-id set. -/
def PoolInv (s : PoolState) : Prop :=
  s.live.Nodup ∧ ∀ id ∈ s.live, id ∈ s.used

/-- An interleaving of allocations and handle drops. -/
inductive PoolOp where
  | alloc
  | drop (id : Nat)
deriving DecidableEq

/-- Replay a sequence of pool operations. -/
def runPool : PoolState → List PoolOp → PoolState
  | s, [] => s
  | s, .alloc :: ops => runPool (allocStep s).1 ops
  | s, .drop id :: ops => runPool (dropStep s id) ops

/-- The freshly constructed pool (`LogicImgPool::new`): empty bit set, no
handles, no messages. -/
def initPool : PoolState := ⟨∅, [], []⟩

/-! ## Definitions: text wrapping (src/ui/text.rs lines 126-165) -/

/-- The `unicode_linebreak::BreakOpportunity` kind of a break. -/
inductive BreakRule where
  | allowed
  | mandatory
deriving DecidableEq

/-- The `word.replace('\n', "")` step of `create_lines`: remove every newline. -/
def stripNl (w : String) : String :=
  String.mk (w.data.filter (fun c => c != '\n'))

/-- Model of `TextRenderer::text_width` (text.rs lines 126-133): sum of per-glyph
advances.  `charW c` models `xAdvance(c) * self.scale * scale`, the
already-scaled width of one glyph, an arbitrary value of a linearly
ordered additive monoid (the Rust `f32` values are such a structure);
the width parameter of the wrap lives in the same structure. -/
def wordWidth {α : Type} [LinearOrderedAddCommMonoid α] (charW : Char → α) (w : String) : α :=
  (w.data.map charW).sum

/-- The in-progress state of `create_lines`: emitted lines, pending words
of the current line, and the summed width `pos` of the pending words. -/
structure WrapState (α : Type) where
  lines : List String
  words : List String
  pos : α

/-- Model of `words.concat()` on a `Vec<String>`: concatenation in order. -/
def sconcat (ws : List String) : String :=
  String.mk ((ws.map String.data).flatten)

/-- One iteration of the `create_lines` loop (text.rs lines 141-163):
strip newlines from the segment, measure it, flush the pending line if
adding it would exceed `width` (in which case a mandatory break is NOT
flushed again — the `!pushed` guard), otherwise append it and flush on a
mandatory break. -/
def wrapStep {α : Type} [LinearOrderedAddCommMonoid α] (charW : Char → α) (width : α)
    (s : WrapState α) (seg : String × BreakRule) : WrapState α :=
  let word := stripNl seg.1
  let ww := wordWidth charW word
  if width < s.pos + ww then
    { lines := s.lines ++ [sconcat s.words], words := [word], pos := ww }
  else
    if seg.2 = .mandatory then
      { lines := s.lines ++ [sconcat (s.words ++ [word])], words := [], pos := 0 }
    else
      { lines := s.lines, words := s.words ++ [word], pos := s.pos + ww }

/-- Model of `TextRenderer::create_lines` (text.rs lines 135-165): fold the loop
body over the line-break segments of the text.  The code iterates
`linebreaks(text).chain([(text.len(), Mandatory)])`; since
`unicode_linebreak` already ends with a mandatory break at end of text,
the chained element contributes one extra empty segment, reproduced
here.  Any pending words left at the end of the loop are discarded (the
code returns only `lines`). -/
def createLines {α : Type} [LinearOrderedAddCommMonoid α] (charW : Char → α) (width : α)
    (segs : List (String × BreakRule)) : List String :=
  ((segs ++ [("", BreakRule.mandatory)]).foldl (wrapStep charW width)
    (⟨[], [], 0⟩ : WrapState α)).lines

/-- A wrapped line is good when its summed glyph width fits `width`, or
it is a single unbreakable word of the input (one newline-stripped
segment) that is wider than `width` by itself. -/
def GoodLine {α : Type} [LinearOrderedAddCommMonoid α] (charW : Char → α) (width : α)
    (segs : List (String × BreakRule)) (l : String) : Prop :=
  wordWidth charW l ≤ width
    ∨ (width < wordWidth charW l ∧ ∃ seg ∈ segs, l = stripNl seg.1)

/-- Loop invariant of `create_lines`: `pos` is the summed width of the
pending words; the pending words exceed `width` only as a lone oversized
word; every pending word is a stripped input segment; every emitted line
is good. -/
def WrapInv {α : Type} [LinearOrderedAddCommMonoid α] (charW : Char → α) (width : α)
    (segs : List (String × BreakRule)) (s : WrapState α) : Prop :=
  s.pos = (s.words.map (wordWidth charW)).sum
  ∧ (width < s.pos → ∃ w, s.words = [w])
  ∧ (∀ w ∈ s.words, ∃ seg ∈ segs, w = stripNl seg.1)
  ∧ ∀ l ∈ s.lines, GoodLine charW width segs l

/-- Modelled from the spec: the segments that
`unicode_linebreak::linebreaks` (an external crate implementing UAX #14)
yields for the example text `"from Alice\nHello world"` — break
opportunities after `"from "` (allowed), after `"Alice\n"` (mandatory,
the LF), after `"Hello "` (allowed), and at end of text (mandatory); a
space belongs to the segment it terminates. -/
def exampleSegs : List (String × BreakRule) :=
  [("from ", .allowed), ("Alice\n", .mandatory), ("Hello ", .allowed), ("world", .mandatory)]

/-- Concrete glyph widths for the wrap example, at scale 1: every glyph
10 units wide, except the space (5) and the stripped newline (0). -/
def exampleCharW (c : Char) : Int :=
  if c = ' ' then 5 else if c = '\n' then 0 else 10

/-! ## Definitions: render-thread mailbox drain (src/ui/mod.rs lines 62-126) -/

/-- The `UiMsg` enum (src/ui/mod.rs lines 159-184).  The render-thread-only
payloads are abstracted: a load-image message carries the outcome of
running its constructor on the render thread (`Except Unit Nat`, the
`Nat` naming the constructed image), a set-screen message carries a
screen tag, and the keyboard / word-wrap messages carry the value their
synchronous handler sends back on the reply channel. -/
inductive UiMsg where
  | loadImage (id : Nat) (outcome : Except Unit Nat)
  | unloadImage (id : Nat)
  | setScreen (scr : Nat)
  | flush
  | keyboard (reply : Nat)
  | wordWrap (reply : Nat)
  | quit
deriving DecidableEq

/-- Render-thread state touched by message processing: the image pool
(`HashMap<usize, Image>`), the active screen, and the values pushed to
reply channels so far (in push order). -/
structure UiState where
  pool : List (Nat × Nat)
  screen : Nat
  sent : List Nat
deriving DecidableEq

/-- Model of `HashMap::insert`: replace any existing binding for the id. -/
def insertPool (l : List (Nat × Nat)) (id img : Nat) : List (Nat × Nat) :=
  (l.filter (fun p => p.1 != id)) ++ [(id, img)]

/-- Effect of one non-stopper message (the match arms of
`Ui::iteration`, src/ui/mod.rs lines 69-111): a successful load inserts
into the pool, a failed load only logs, unload removes, set-screen
replaces the screen, keyboard / word-wrap push their reply. -/
def applyMsg (s : UiState) : UiMsg → UiState
  | .loadImage id outcome =>
      match outcome with
      | .ok img => { s with pool := insertPool s.pool id img }
      | .error _ => s
  | .unloadImage id => { s with pool := s.pool.filter (fun p => p.1 != id) }
  | .setScreen scr => { s with screen := scr }
  | .keyboard r => { s with sent := s.sent ++ [r] }
  | .wordWrap r => { s with sent := s.sent ++ [r] }
  | .flush => s
  | .quit => s

/-- Is this message one that terminates the drain loop for this frame
(`Flush` breaks, `Quit` returns false)? -/
def isStopper : UiMsg → Bool
  | .flush => true
  | .quit => true
  | _ => false

/-- The `while let Ok(msg) = self.receiver.try_recv()` drain loop of
`Ui::iteration`: pop and apply messages in FIFO order until the queue is
empty, a flush is popped (stop draining, keep the rest queued), or a
quit is popped (return false, keep the rest queued).  Returns the
continue-running flag, the state, and the messages left in the queue. -/
def drainMsgs : UiState → List UiMsg → Bool × UiState × List UiMsg
  | s, [] => (true, s, [])
  | s, m :: rest =>
      match m with
      | .flush => (true, s, rest)
      | .quit => (false, s, rest)
      | _ => drainMsgs (applyMsg s m) rest

/-- Model of `Ui::iteration` (src/ui/mod.rs lines 62-126) up to its drawing tail:
if the outer platform loop (`apt.main_loop()`) says to stop, return
false immediately without draining; otherwise drain the mailbox. -/
def iteration (aptOk : Bool) (s : UiState) (queue : List UiMsg) :
    Bool × UiState × List UiMsg :=
  if aptOk then drainMsgs s queue else (false, s, queue)

/-- Modelled from the spec: the drain contract in the spec's words — the
processed prefix is the longest stopper-free prefix, applied in FIFO
order; the first stopper is popped too; messages after it stay queued;
the result is false exactly when that stopper is a quit message. -/
def drainSpec (s : UiState) (q : List UiMsg) : Bool × UiState × List UiMsg :=
  let pre := q.takeWhile (fun m => !isStopper m)
  let rest := q.dropWhile (fun m => !isStopper m)
  (match rest.head? with
   | some .quit => false
   | _ => true,
   pre.foldl applyMsg s,
   rest.tail)

/-! ## Theorems: Retriever batch ordering (C1) -/

theorem runWorker_channel (f : Request → α) (queue : List (Request × Nat))
    (chans : Nat → List α) (c : Nat) :
    runWorker f queue chans c
      = chans c ++ (queue.filter (fun p => p.2 == c)).map (fun p => f p.1) := by
  induction queue generalizing chans with
  | nil => simp [runWorker]
  | cons p q ih =>
      obtain ⟨r, c'⟩ := p
      rw [runWorker, ih]
      by_cases h : c = c'
      · subst h
        simp [List.filter]
      · have h' : (c' == c) = false := by
          simp [Ne.symm h]
        simp [List.filter, h', if_neg h]

/--
Claim C1: for every batch of N requests submitted in a single call to
`Retriever::request`, receiving N times from the returned receiver yields
exactly the N responses, in the order the requests were submitted.  The
worker's queue may already hold other requests (tagged with other
channels); the batch's fresh channel `c` starts empty.
-/
theorem retriever_batch_fifo (f : Request → α) (queue : List (Request × Nat))
    (chans : Nat → List α) (batch : List Request) (c : Nat)
    (hfresh : ∀ p ∈ queue, p.2 ≠ c) (hempty : chans c = []) :
    runWorker f (requestBatch queue batch c) chans c = batch.map f
      ∧ (runWorker f (requestBatch queue batch c) chans c).length = batch.length := by
  have hq : queue.filter (fun p => p.2 == c) = [] := by
    apply List.filter_eq_nil_iff.mpr
    intro p hp
    simpa using hfresh p hp
  have hb : (batch.map (fun r => (r, c))).filter (fun p => p.2 == c)
      = batch.map (fun r => (r, c)) := by
    apply List.filter_eq_self.mpr
    intro p hp
    obtain ⟨r, hr, rfl⟩ := List.mem_map.mp hp
    simp
  have key : runWorker f (requestBatch queue batch c) chans c = batch.map f := by
    rw [requestBatch, runWorker_channel, hempty, List.filter_append, hq, hb]
    simp [List.map_map, Function.comp]
  exact ⟨key, by rw [key]; simp⟩

/-- Witness for C1 at a concrete two-request batch alongside an unrelated
queued request. -/
theorem retriever_batch_fifo_witness :
    runWorker (fun r => r.url) (requestBatch [(⟨Method.get, "other"⟩, 0)]
        [⟨Method.get, "a"⟩, ⟨Method.post [], "b"⟩] 1) (fun _ => []) 1
      = ["a", "b"]
    ∧ (runWorker (fun r => r.url) (requestBatch [(⟨Method.get, "other"⟩, 0)]
        [⟨Method.get, "a"⟩, ⟨Method.post [], "b"⟩] 1) (fun _ => []) 1).length = 2 :=
  retriever_batch_fifo (fun r => r.url) [(⟨Method.get, "other"⟩, 0)] (fun _ => [])
    [⟨Method.get, "a"⟩, ⟨Method.post [], "b"⟩] 1 (by decide) rfl

/-! ## Theorems: make_request authorization policy (C2) -/

/--
Claim C2 (counterexample): the claim "in every other case the request is
performed without authorization" fails: with a non-empty configured token
and a request URL that the `url` crate cannot parse (here the scheme-less
string `"notaurl"`), `make_request` propagates the parse error and the
request is never performed at all — neither with nor without the bearer
header.
-/
theorem make_request_auth_counterexample :
    (makeRequest urlDomainModel [.ok (200, [1])] "example.social" "sekrit" "notaurl").performedWith
        = none
    ∧ (makeRequest urlDomainModel [.ok (200, [1])] "example.social" "sekrit" "notaurl").result
        = .error .urlParse
    ∧ ("sekrit" : String) ≠ "" := by
  refine ⟨rfl, rfl, ?_⟩
  decide

/--
Claim C2 (amended): for every request executed by the Retriever worker, the
bearer header is attached iff the configured token is non-empty and the
request URL parses with a domain equal (by exact string comparison) to the
configured instance; when the token is empty, or the URL parses with a
different or missing domain, the request is performed without
authorization; but when the token is non-empty and the URL fails to
parse, the request is not performed and a URL-parse error is returned.
-/
theorem make_request_auth_policy (parse : String → Option (Option String))
    (oracle : List TransportResult) (instanceStr tokenStr url : String) :
    ((makeRequest parse oracle instanceStr tokenStr url).performedWith
        = some (some tokenStr)
      ↔ tokenStr ≠ "" ∧ parse url = some (some instanceStr))
    ∧ (tokenStr = "" →
        (makeRequest parse oracle instanceStr tokenStr url).performedWith = some none)
    ∧ (∀ d, parse url = some d → d ≠ some instanceStr →
        (makeRequest parse oracle instanceStr tokenStr url).performedWith = some none)
    ∧ (tokenStr ≠ "" → parse url = none →
        (makeRequest parse oracle instanceStr tokenStr url).performedWith = none
        ∧ (makeRequest parse oracle instanceStr tokenStr url).result = .error .urlParse) := by
  have expand :
      ∀ auth, bearerDecision parse instanceStr tokenStr url = .ok auth →
        (makeRequest parse oracle instanceStr tokenStr url).performedWith = some auth := by
    intro auth h
    unfold makeRequest
    rw [h]
    match oracle with
    | [] => rfl
    | .error _ :: rest => rfl
    | .ok (status, body) :: rest => rfl
  constructor
  · constructor
    · intro h
      by_cases ht : tokenStr = ""
      · have hb : bearerDecision parse instanceStr tokenStr url = .ok none := by
          simp [bearerDecision, ht]
        rw [expand none hb] at h
        simp at h
      · refine ⟨ht, ?_⟩
        rcases hp : parse url with _ | _ | d
        · have hb : bearerDecision parse instanceStr tokenStr url = .error () := by
            simp [bearerDecision, ht, hp]
          unfold makeRequest at h
          rw [hb] at h
          simp at h
        · have hb : bearerDecision parse instanceStr tokenStr url = .ok none := by
            simp [bearerDecision, ht, hp]
          rw [expand none hb] at h
          simp at h
        · by_cases hd : d = instanceStr
          · rw [hd]
          · have hb : bearerDecision parse instanceStr tokenStr url = .ok none := by
              simp [bearerDecision, ht, hp, hd]
            rw [expand none hb] at h
            simp at h
    · rintro ⟨ht, hp⟩
      have hb : bearerDecision parse instanceStr tokenStr url = .ok (some tokenStr) := by
        simp [bearerDecision, ht, hp]
      exact expand (some tokenStr) hb
  refine ⟨?_, ?_, ?_⟩
  · intro ht
    exact expand none (by simp [bearerDecision, ht])
  · intro d hp hd
    by_cases ht : tokenStr = ""
    · exact expand none (by simp [bearerDecision, ht])
    · rcases d with _ | d'
      · exact expand none (by simp [bearerDecision, ht, hp])
      · have hd' : d' ≠ instanceStr := fun hc => hd (by rw [hc])
        exact expand none (by simp [bearerDecision, ht, hp, hd'])
  · intro ht hp
    have hb : bearerDecision parse instanceStr tokenStr url = .error () := by
      simp [bearerDecision, ht, hp]
    constructor
    · unfold makeRequest
      rw [hb]
    · unfold makeRequest
      rw [hb]

/-- Witness for C2 (amended) at the spec's own example: instance
`example.social` with a non-empty token attaches the bearer header to
`https://example.social/api/v1/x` and performs
`https://cdn.other.example/avatar.png` without authorization. -/
theorem make_request_auth_policy_witness :
    (makeRequest urlDomainModel [.ok (200, [1])] "example.social" "sekrit"
        "https://example.social/api/v1/x").performedWith = some (some "sekrit")
    ∧ (makeRequest urlDomainModel [.ok (200, [1])] "example.social" "sekrit"
        "https://cdn.other.example/avatar.png").performedWith = some none := by
  constructor
  · exact (make_request_auth_policy urlDomainModel [.ok (200, [1])] "example.social"
      "sekrit" "https://example.social/api/v1/x").1.mpr ⟨by decide, by decide⟩
  · exact (make_request_auth_policy urlDomainModel [.ok (200, [1])] "example.social"
      "sekrit" "https://cdn.other.example/avatar.png").2.2.1
      (some "cdn.other.example") (by decide) (by decide)

/-! ## Theorems: make_request status classification (C6) -/

/--
Claim C6 (counterexample): the claim "any 2xx status is returned as success
with the body bytes" fails: `make_request` tests `response != 200`, so a
204 response — a 2xx status — is returned as the typed HTTP-status error
`HttpError(204)`, not as success.
-/
theorem make_request_status_counterexample :
    (makeRequest urlDomainModel [.ok (204, [7])] "i" "" "https://a.example/x").result
        = .error (.http 204)
    ∧ (makeRequest urlDomainModel [.ok (204, [7])] "i" "" "https://a.example/x").result
        ≠ .ok [7]
    ∧ 200 ≤ 204 ∧ 204 < 300 := by
  refine ⟨rfl, ?_, by decide, by decide⟩
  decide

/--
Claim C6 (amended): for every request performed by the Retriever that
completes with an HTTP status: status exactly 200 is returned as success
with the body bytes, and any other status — including other 2xx codes —
is returned as a typed HTTP-status error carrying the numeric code;
transport failures are a distinct transport-error value; and the request
is not retried (exactly one transport answer is consumed).
-/
theorem make_request_status_classification (parse : String → Option (Option String))
    (instanceStr tokenStr url : String) (auth : Option String)
    (hauth : bearerDecision parse instanceStr tokenStr url = .ok auth) :
    (∀ status body rest,
        makeRequest parse (.ok (status, body) :: rest) instanceStr tokenStr url
          = ⟨if status = 200 then .ok body else .error (.http status), some auth, rest⟩)
    ∧ (∀ rest,
        makeRequest parse (.error () :: rest) instanceStr tokenStr url
          = ⟨.error .transport, some auth, rest⟩) := by
  constructor
  · intro status body rest
    unfold makeRequest
    rw [hauth]
  · intro rest
    unfold makeRequest
    rw [hauth]

/-- Witness for C6 (amended): a 404 yields `HttpError(404)`, a 200 yields
the body, a transport failure yields the transport error; in each case
exactly the first oracle answer is consumed. -/
theorem make_request_status_classification_witness :
    makeRequest urlDomainModel [.ok (404, [9]), .ok (200, [1])] "i" "" "https://a.example/x"
        = ⟨.error (.http 404), some none, [.ok (200, [1])]⟩
    ∧ makeRequest urlDomainModel [.ok (200, [5])] "i" "" "https://a.example/x"
        = ⟨.ok [5], some none, []⟩
    ∧ makeRequest urlDomainModel [.error ()] "i" "" "https://a.example/x"
        = ⟨.error .transport, some none, []⟩ := by
  refine ⟨?_, ?_, ?_⟩
  · have h := (make_request_status_classification urlDomainModel "i" "" "https://a.example/x"
      none rfl).1 404 [9] [.ok (200, [1])]
    rw [h]
    decide
  · have h := (make_request_status_classification urlDomainModel "i" "" "https://a.example/x"
      none rfl).1 200 [5] []
    rw [h]
    decide
  · exact (make_request_status_classification urlDomainModel "i" "" "https://a.example/x"
      none rfl).2 []

/-! ## Theorems: cache map lemmas -/

theorem alookup_eraseKey_self (m : List (String × Nat)) (u : String) :
    alookup (eraseKey m u) u = none := by
  induction m with
  | nil => rfl
  | cons p rest ih =>
      obtain ⟨v, e⟩ := p
      by_cases h : v = u
      · simp [eraseKey, h, ih]
      · simp [eraseKey, alookup, h, ih]

theorem alookup_eraseKey_other (m : List (String × Nat)) (u' u : String) (h : u' ≠ u) :
    alookup (eraseKey m u') u = alookup m u := by
  induction m with
  | nil => rfl
  | cons p rest ih =>
      obtain ⟨v, e⟩ := p
      by_cases hv : v = u'
      · simp [eraseKey, hv, alookup, h, ih]
      · simp [eraseKey, hv, alookup, ih]

theorem alookup_append_left (m m' : List (String × Nat)) (u : String) (e : Nat)
    (h : alookup m u = some e) : alookup (m ++ m') u = some e := by
  induction m with
  | nil => simp [alookup] at h
  | cons p rest ih =>
      obtain ⟨v, e'⟩ := p
      by_cases hv : v = u
      · simp [alookup, hv] at h ⊢
        exact h
      · simp [alookup, hv] at h ⊢
        exact ih h

theorem alookup_append_right (m m' : List (String × Nat)) (u : String)
    (h : alookup m u = none) : alookup (m ++ m') u = alookup m' u := by
  induction m with
  | nil => rfl
  | cons p rest ih =>
      obtain ⟨v, e'⟩ := p
      by_cases hv : v = u
      · simp [alookup, hv] at h
      · simp [alookup, hv] at h ⊢
        exact ih h

/-! ## Theorems: cache eviction on handle drop (C3) -/

/--
Claim C3: when the last external holder of a cache entry releases it — one
live handle, plus the cache's own map slot, so a strong count of exactly
two at drop time — the entry is removed from the cache map, and a
subsequent `get` for the same key issues a fresh network request; and an
entry with two or more live external handles is never removed by a
handle drop.
-/
theorem cache_drop_eviction (s : CacheState) (u : String) (e : Nat)
    (hin : alookup s.map u = some e) :
    (s.handles e = 1 →
        alookup (dropHandle s u e).map u = none
        ∧ getMisses (dropHandle s u e).map [(u, none)] = [(u, none)])
    ∧ (2 ≤ s.handles e → alookup (dropHandle s u e).map u = some e) := by
  constructor
  · intro h1
    have hcount : strongCount s u e = 2 := by
      simp [strongCount, hin, h1]
    have hmap : (dropHandle s u e).map = eraseKey s.map u := by
      simp [dropHandle, hcount]
    have hnone : alookup (dropHandle s u e).map u = none := by
      rw [hmap]
      exact alookup_eraseKey_self s.map u
    refine ⟨hnone, ?_⟩
    simp [getMisses, getMissesAux, hnone]
  · intro h2
    have hcount : strongCount s u e ≠ 2 := by
      simp [strongCount, hin]
      omega
    simp [dropHandle, hcount, hin]

/-- Witness for C3: a one-handle entry is evicted by its drop and
re-fetched, while a two-handle entry survives a drop. -/
theorem cache_drop_eviction_witness :
    (alookup (dropHandle ⟨[("a", 5)], fun e => if e = 5 then 1 else 0, 6⟩ "a" 5).map "a" = none
      ∧ getMisses (dropHandle ⟨[("a", 5)], fun e => if e = 5 then 1 else 0, 6⟩ "a" 5).map
          [("a", none)] = [("a", none)])
    ∧ alookup (dropHandle ⟨[("b", 3)], fun e => if e = 3 then 2 else 0, 4⟩ "b" 3).map "b"
        = some 3 := by
  constructor
  · exact (cache_drop_eviction ⟨[("a", 5)], fun e => if e = 5 then 1 else 0, 6⟩ "a" 5
      (by decide)).1 (by decide)
  · exact (cache_drop_eviction ⟨[("b", 3)], fun e => if e = 3 then 2 else 0, 4⟩ "b" 3
      (by decide)).2 (by decide)

/-! ## Theorems: miss-list and processing lemmas -/

theorem getMissesAux_count (m : List (String × Nat)) (l : List (String × Option Nat))
    (u : String) : ∀ added : List String,
    ((getMissesAux m added l).map Prod.fst).count u =
      if (alookup m u).isSome ∨ u ∈ added then 0
      else if u ∈ l.map Prod.fst then 1 else 0 := by
  induction l with
  | nil =>
      intro added
      simp [getMissesAux]
  | cons p rest ih =>
      intro added
      obtain ⟨v, d⟩ := p
      by_cases htake : alookup m v = none ∧ ¬ v ∈ added
      · by_cases hu : u = v
        · subst hu
          have h1 := ih (u :: added)
          simp [getMissesAux, htake, List.count_cons, h1, htake.1]
        · have h1 := ih (v :: added)
          simp only [getMissesAux, if_pos htake, List.map_cons, List.count_cons, h1]
          have hbeq : (v == u) = false := by simp [Ne.symm hu]
          simp only [hbeq, Bool.false_eq_true, if_false, Nat.add_zero]
          by_cases hs : (alookup m u).isSome = true
          · rw [if_pos (Or.inl hs), if_pos (Or.inl hs)]
          · by_cases ha : u ∈ added
            · rw [if_pos (Or.inr (List.mem_cons_of_mem v ha)), if_pos (Or.inr ha)]
            · have hc₁ : ¬((alookup m u).isSome = true ∨ u ∈ v :: added) := by
                rintro (h | h)
                · exact hs h
                · rcases List.mem_cons.mp h with h' | h'
                  · exact hu h'
                  · exact ha h'
              have hc₂ : ¬((alookup m u).isSome = true ∨ u ∈ added) := by
                rintro (h | h)
                · exact hs h
                · exact ha h
              rw [if_neg hc₁, if_neg hc₂]
              by_cases hr : u ∈ List.map Prod.fst rest
              · rw [if_pos hr, if_pos (List.mem_cons_of_mem v hr)]
              · rw [if_neg hr, if_neg (fun hc => by
                  rcases List.mem_cons.mp hc with h' | h'
                  · exact hu h'
                  · exact hr h')]
      · have h1 := ih added
        rw [getMissesAux, if_neg htake, h1]
        simp only [List.map_cons]
        by_cases hu : u = v
        · subst hu
          have hcond : (alookup m u).isSome ∨ u ∈ added := by
            rcases Decidable.not_and_iff_or_not.mp htake with h | h
            · left
              rcases halo : alookup m u with _ | e
              · exact absurd halo h
              · simp
            · right
              exact Decidable.not_not.mp h
          simp [hcond]
        · by_cases hc : (alookup m u).isSome = true ∨ u ∈ added
          · rw [if_pos hc, if_pos hc]
          · rw [if_neg hc, if_neg hc]
            by_cases hr : u ∈ List.map Prod.fst rest
            · rw [if_pos hr, if_pos (List.mem_cons_of_mem v hr)]
            · rw [if_neg hr, if_neg (fun hc' => by
                rcases List.mem_cons.mp hc' with h' | h'
                · exact hu h'
                · exact hr h')]

theorem getMissesAux_facts (m : List (String × Nat)) (l : List (String × Option Nat)) :
    ∀ added, ∀ p ∈ getMissesAux m added l, alookup m p.1 = none ∧ ¬ p.1 ∈ added := by
  induction l with
  | nil =>
      intro added p hp
      simp [getMissesAux] at hp
  | cons q rest ih =>
      intro added p hp
      obtain ⟨v, d⟩ := q
      by_cases htake : alookup m v = none ∧ ¬ v ∈ added
      · rw [getMissesAux, if_pos htake] at hp
        rcases List.mem_cons.mp hp with h | h
        · subst h
          exact htake
        · have := ih (v :: added) p h
          exact ⟨this.1, fun hc => this.2 (List.mem_cons_of_mem v hc)⟩
      · rw [getMissesAux, if_neg htake] at hp
        exact ih added p hp

theorem getMissesAux_nodup (m : List (String × Nat)) (l : List (String × Option Nat)) :
    ∀ added, ((getMissesAux m added l).map Prod.fst).Nodup := by
  induction l with
  | nil =>
      intro added
      simp [getMissesAux]
  | cons q rest ih =>
      intro added
      obtain ⟨v, d⟩ := q
      by_cases htake : alookup m v = none ∧ ¬ v ∈ added
      · rw [getMissesAux, if_pos htake]
        refine List.nodup_cons.mpr ⟨?_, ih (v :: added)⟩
        intro hc
        rcases List.mem_map.mp hc with ⟨p, hp, hfst⟩
        have := (getMissesAux_facts m rest (v :: added) p hp).2
        rw [hfst] at this
        exact this (List.mem_cons_self v added)
      · rw [getMissesAux, if_neg htake]
        exact ih added

theorem getMissesAux_covers (m : List (String × Nat)) (l : List (String × Option Nat)) :
    ∀ added, ∀ p ∈ l, (alookup m p.1).isSome ∨ p.1 ∈ added
      ∨ p.1 ∈ (getMissesAux m added l).map Prod.fst := by
  induction l with
  | nil =>
      intro added p hp
      simp at hp
  | cons q rest ih =>
      intro added p hp
      obtain ⟨v, d⟩ := q
      by_cases htake : alookup m v = none ∧ ¬ v ∈ added
      · rw [getMissesAux, if_pos htake]
        rcases List.mem_cons.mp hp with h | h
        · subst h
          right; right
          simp
        · rcases ih (v :: added) p h with h' | h' | h'
          · exact Or.inl h'
          · rcases List.mem_cons.mp h' with h'' | h''
            · right; right
              rw [h'']
              simp
            · exact Or.inr (Or.inl h'')
          · right; right
            simp only [List.map_cons]
            exact List.mem_cons_of_mem v h'
      · rw [getMissesAux, if_neg htake]
        rcases List.mem_cons.mp hp with h | h
        · subst h
          rcases Decidable.not_and_iff_or_not.mp htake with h' | h'
          · left
            rcases halo : alookup m v with _ | e
            · exact absurd halo h'
            · simp [halo]
          · exact Or.inr (Or.inl (Decidable.not_not.mp h'))
        · exact ih added p h

theorem processMisses_preserves_some (fetchDecode : String → Option Nat → Bool)
    (l : List (String × Option Nat)) :
    ∀ s : CacheState, ∀ x e, alookup s.map x = some e →
      alookup (processMisses fetchDecode s l).1.map x = some e := by
  induction l with
  | nil =>
      intro s x e h
      exact h
  | cons q rest ih =>
      intro s x e h
      obtain ⟨v, d⟩ := q
      by_cases hfd : fetchDecode v d = true
      · rw [processMisses, if_pos hfd]
        exact ih (insertEntry s v) x e (alookup_append_left s.map [(v, s.nextId)] x e h)
      · rw [processMisses, if_neg hfd]
        exact h

theorem processMisses_covered (fetchDecode : String → Option Nat → Bool)
    (l : List (String × Option Nat)) :
    ∀ s : CacheState, (processMisses fetchDecode s l).2 = true →
      ∀ p ∈ l, ∃ e, alookup (processMisses fetchDecode s l).1.map p.1 = some e := by
  induction l with
  | nil =>
      intro s _ p hp
      simp at hp
  | cons q rest ih =>
      intro s hok p hp
      obtain ⟨v, d⟩ := q
      by_cases hfd : fetchDecode v d = true
      · rw [processMisses, if_pos hfd] at hok ⊢
        rcases List.mem_cons.mp hp with h | h
        · subst h
          have hins : ∃ e, alookup (insertEntry s v).map v = some e := by
            rcases halo : alookup s.map v with _ | e
            · refine ⟨s.nextId, ?_⟩
              rw [insertEntry]
              simp only
              rw [alookup_append_right s.map [(v, s.nextId)] v halo]
              simp [alookup]
            · exact ⟨e, alookup_append_left s.map [(v, s.nextId)] v e halo⟩
          obtain ⟨e, he⟩ := hins
          exact ⟨e, processMisses_preserves_some fetchDecode rest (insertEntry s v) v e he⟩
        · exact ih (insertEntry s v) hok p h
      · rw [processMisses, if_neg hfd] at hok
        simp at hok

theorem filterMap_lookup_eq_map (M : List (String × Nat))
    (images : List (String × Option Nat))
    (hall : ∀ p ∈ images, (alookup M p.1).isSome) :
    images.filterMap (fun p => (alookup M p.1).map (fun e => (p.1, e)))
      = images.map (fun p => (p.1, (alookup M p.1).getD 0)) := by
  induction images with
  | nil => rfl
  | cons q rest ih =>
      have hq := hall q (List.mem_cons_self q rest)
      have ih' := ih (fun p hp => hall p (List.mem_cons_of_mem q hp))
      rcases halo : alookup M q.1 with _ | e
      · rw [halo] at hq
        simp at hq
      · simp [List.filterMap_cons, halo, ih']

/-! ## Theorems: WebImageCache.get contract (C5) -/

/--
Claim C5 (counterexample): the claim "if the same URL occurs more than once
in L, ... exactly one network fetch is issued for that URL within the
call" fails when the URL is already cached: with `"a"` present in the
cache map and the input `[("a", none), ("a", none)]`, the call succeeds,
returns two handles on the same entry, and issues zero fetches, not one.
-/
theorem cache_get_dedup_counterexample :
    getMisses [("a", 7)] [("a", none), ("a", none)] = []
    ∧ (([("a", none), ("a", none)] : List (String × Option Nat)).map Prod.fst).count "a" = 2
    ∧ (getRun (fun _ _ => true) ⟨[("a", 7)], fun _ => 0, 8⟩ [("a", none), ("a", none)]).2
        = some [("a", 7), ("a", 7)] := by
  refine ⟨rfl, by decide, rfl⟩

/--
Claim C5 (amended): for every successful call to `WebImageCache::get` with
input list L, the result contains exactly one handle per element of L, in
the same order as L, each handle referencing the cache entry for its
input's URL (so duplicated URLs yield handles on the same decoded entry);
and at most one network fetch is issued per URL within the call — exactly
one when the URL was not cached at the start of the call, zero when it
was.
-/
theorem cache_get_contract (fetchDecode : String → Option Nat → Bool) (s₀ : CacheState)
    (images : List (String × Option Nat))
    (hok : (processMisses fetchDecode s₀ (getMisses s₀.map images)).2 = true) :
    (getRun fetchDecode s₀ images).2
        = some (images.map (fun p =>
            (p.1, (alookup (processMisses fetchDecode s₀ (getMisses s₀.map images)).1.map
              p.1).getD 0)))
    ∧ (∀ p ∈ images,
        (alookup (processMisses fetchDecode s₀ (getMisses s₀.map images)).1.map p.1).isSome)
    ∧ (∀ u, ((getMisses s₀.map images).map Prod.fst).count u
          = if (alookup s₀.map u).isSome then 0
            else if u ∈ images.map Prod.fst then 1 else 0) := by
  have hcover : ∀ p ∈ images,
      (alookup (processMisses fetchDecode s₀ (getMisses s₀.map images)).1.map p.1).isSome := by
    intro p hp
    rcases getMissesAux_covers s₀.map images [] p hp with h | h | h
    · rcases Option.isSome_iff_exists.mp h with ⟨e, he⟩
      rw [processMisses_preserves_some fetchDecode (getMisses s₀.map images) s₀ p.1 e he]
      simp
    · simp at h
    · rcases List.mem_map.mp h with ⟨q, hq, hfst⟩
      obtain ⟨e, he⟩ := processMisses_covered fetchDecode (getMisses s₀.map images) s₀ hok q hq
      rw [hfst] at he
      rw [he]
      simp
  refine ⟨?_, hcover, ?_⟩
  · rw [getRun]
    simp only [hok, if_true]
    rw [filterMap_lookup_eq_map _ images hcover]
  · intro u
    have := getMissesAux_count s₀.map images u []
    simpa using this

/-- Witness for C5 (amended): one cached URL, one fresh URL, the fresh one
repeated — three handles in input order, the duplicate sharing its entry,
and one fetch for the fresh URL, none for the cached one. -/
theorem cache_get_contract_witness :
    (getRun (fun _ _ => true) ⟨[("a", 4)], fun _ => 0, 5⟩
        [("b", some 32), ("a", none), ("b", none)]).2
      = some [("b", 5), ("a", 4), ("b", 5)]
    ∧ ((getMisses [("a", 4)] [("b", some 32), ("a", none), ("b", none)]).map Prod.fst).count "b"
      = 1
    ∧ ((getMisses [("a", 4)] [("b", some 32), ("a", none), ("b", none)]).map Prod.fst).count "a"
      = 0 := by
  have h := cache_get_contract (fun _ _ => true) ⟨[("a", 4)], fun _ => 0, 5⟩
    [("b", some 32), ("a", none), ("b", none)] rfl
  refine ⟨?_, ?_, ?_⟩
  · rw [h.1]
    rfl
  · rw [h.2.2 "b"]
    decide
  · rw [h.2.2 "a"]
    decide

/-! ## Theorems: failed get leaves decoded entries behind (C10) -/

theorem processMisses_handles (fetchDecode : String → Option Nat → Bool)
    (l : List (String × Option Nat)) :
    ∀ s : CacheState, (processMisses fetchDecode s l).1.handles = s.handles := by
  induction l with
  | nil =>
      intro s
      rfl
  | cons q rest ih =>
      intro s
      obtain ⟨v, d⟩ := q
      by_cases hfd : fetchDecode v d = true
      · rw [processMisses, if_pos hfd]
        exact ih (insertEntry s v)
      · rw [processMisses, if_neg hfd]

theorem dropHandle_map_other (s : CacheState) (u' : String) (e' : Nat) (u : String)
    (h : u' ≠ u) : alookup (dropHandle s u' e').map u = alookup s.map u := by
  rw [dropHandle]
  by_cases hc : strongCount s u' e' = 2
  · simp only [if_pos hc]
    exact alookup_eraseKey_other s.map u' u h
  · simp only [if_neg hc]

theorem processMisses_split (fetchDecode : String → Option Nat → Bool)
    (pre : List (String × Option Nat)) (u₀ : String) (d₀ : Option Nat)
    (post : List (String × Option Nat)) :
    ∀ s : CacheState,
      ((pre ++ (u₀, d₀) :: post).map Prod.fst).Nodup →
      (∀ p ∈ pre ++ (u₀, d₀) :: post, alookup s.map p.1 = none) →
      (∀ p ∈ pre, fetchDecode p.1 p.2 = true) →
      fetchDecode u₀ d₀ = false →
      (processMisses fetchDecode s (pre ++ (u₀, d₀) :: post)).2 = false
      ∧ ∀ p ∈ pre, ∃ e,
          alookup (processMisses fetchDecode s (pre ++ (u₀, d₀) :: post)).1.map p.1 = some e
          ∧ s.nextId ≤ e := by
  induction pre with
  | nil =>
      intro s _ _ _ hfail
      rw [List.nil_append, processMisses, if_neg (by rw [hfail]; exact Bool.false_ne_true)]
      exact ⟨rfl, by intro p hp; simp at hp⟩
  | cons q pre' ih =>
      intro s hnodup huncached hpre hfail
      obtain ⟨v, dv⟩ := q
      have hfd : fetchDecode v dv = true := hpre (v, dv) (List.mem_cons_self _ _)
      have hstep : processMisses fetchDecode s (((v, dv) :: pre') ++ (u₀, d₀) :: post)
          = processMisses fetchDecode (insertEntry s v) (pre' ++ (u₀, d₀) :: post) := by
        rw [List.cons_append, processMisses, if_pos hfd]
      have hvnotin : ∀ p ∈ pre' ++ (u₀, d₀) :: post, p.1 ≠ v := by
        intro p hp
        have hn := hnodup
        rw [List.cons_append, List.map_cons] at hn
        have hnotmem := (List.nodup_cons.mp hn).1
        intro hc
        have hm := List.mem_map_of_mem Prod.fst hp
        rw [hc] at hm
        exact hnotmem hm
      have huncached' : ∀ p ∈ pre' ++ (u₀, d₀) :: post,
          alookup (insertEntry s v).map p.1 = none := by
        intro p hp
        have h₀ : alookup s.map p.1 = none :=
          huncached p (List.mem_cons_of_mem _ hp)
        rw [insertEntry]
        simp only
        rw [alookup_append_right s.map [(v, s.nextId)] p.1 h₀]
        simp [alookup, Ne.symm (hvnotin p hp)]
      have hnodup' : ((pre' ++ (u₀, d₀) :: post).map Prod.fst).Nodup := by
        have hn := hnodup
        rw [List.cons_append, List.map_cons] at hn
        exact (List.nodup_cons.mp hn).2
      have hpre' : ∀ p ∈ pre', fetchDecode p.1 p.2 = true :=
        fun p hp => hpre p (List.mem_cons_of_mem _ hp)
      obtain ⟨hfalse, hrest⟩ := ih (insertEntry s v) hnodup' huncached' hpre' hfail
      rw [hstep]
      refine ⟨hfalse, ?_⟩
      intro p hp
      rcases List.mem_cons.mp hp with h | h
      · subst h
        have hins : alookup (insertEntry s v).map v = some s.nextId := by
          have h₀ : alookup s.map v = none :=
            huncached (v, dv) (List.mem_cons_self _ _)
          rw [insertEntry]
          simp only
          rw [alookup_append_right s.map [(v, s.nextId)] v h₀]
          simp [alookup]
        exact ⟨s.nextId,
          processMisses_preserves_some fetchDecode (pre' ++ (u₀, d₀) :: post)
            (insertEntry s v) v s.nextId hins,
          Nat.le_refl _⟩
      · obtain ⟨e, he, hle⟩ := hrest p h
        exact ⟨e, he, Nat.le_trans (Nat.le_succ _) hle⟩

/--
Claim C10: `WebImageCache::get` is not atomic on error: when the fetch or
decode of a miss fails, the call returns the error and no handles, yet
every entry decoded earlier in the same call stays inserted in the
shared cache map; those entries have zero external handles, and the
drop-based eviction rule cannot remove them — dropping a handle of any
other URL leaves them in place, and even a drop naming such an entry
sees a strong count of one (map slot only), not the required two.
-/
theorem cache_get_error_leak (fetchDecode : String → Option Nat → Bool) (s₀ : CacheState)
    (images pre : List (String × Option Nat)) (u₀ : String) (d₀ : Option Nat)
    (post : List (String × Option Nat))
    (hfresh : ∀ e, s₀.nextId ≤ e → s₀.handles e = 0)
    (hsplit : getMisses s₀.map images = pre ++ (u₀, d₀) :: post)
    (hpre : ∀ p ∈ pre, fetchDecode p.1 p.2 = true)
    (hfail : fetchDecode u₀ d₀ = false) :
    (getRun fetchDecode s₀ images).2 = none
    ∧ ∀ p ∈ pre, ∃ e,
        alookup (getRun fetchDecode s₀ images).1.map p.1 = some e
        ∧ (getRun fetchDecode s₀ images).1.handles e = 0
        ∧ (∀ u' e', u' ≠ p.1 →
            alookup (dropHandle (getRun fetchDecode s₀ images).1 u' e').map p.1 = some e)
        ∧ alookup (dropHandle (getRun fetchDecode s₀ images).1 p.1 e).map p.1 = some e := by
  have hnodup : ((pre ++ (u₀, d₀) :: post).map Prod.fst).Nodup := by
    rw [← hsplit]
    exact getMissesAux_nodup s₀.map images []
  have huncached : ∀ p ∈ pre ++ (u₀, d₀) :: post, alookup s₀.map p.1 = none := by
    intro p hp
    rw [← hsplit] at hp
    exact (getMissesAux_facts s₀.map images [] p hp).1
  obtain ⟨hfalse, hentries⟩ :=
    processMisses_split fetchDecode pre u₀ d₀ post s₀ hnodup huncached hpre hfail
  have hrun : getRun fetchDecode s₀ images
      = ((processMisses fetchDecode s₀ (getMisses s₀.map images)).1, none) := by
    rw [getRun]
    simp only [hsplit, hfalse, Bool.false_eq_true, if_false]
  refine ⟨by rw [hrun], ?_⟩
  intro p hp
  rw [hsplit] at *
  obtain ⟨e, he, hle⟩ := hentries p hp
  have hh : (processMisses fetchDecode s₀ (pre ++ (u₀, d₀) :: post)).1.handles e = 0 := by
    rw [processMisses_handles]
    exact hfresh e hle
  rw [hrun]
  simp only
  rw [hsplit]
  refine ⟨e, he, hh, ?_, ?_⟩
  · intro u' e' hne
    rw [dropHandle_map_other _ u' e' p.1 hne]
    exact he
  · rw [dropHandle]
    have hstrong : strongCount (processMisses fetchDecode s₀ (pre ++ (u₀, d₀) :: post)).1
        p.1 e ≠ 2 := by
      rw [strongCount, hh, he, if_pos rfl]
      omega
    simp only [if_neg hstrong]
    exact he

/-- Witness for C10: two misses, the first decodes, the second fails; the
call fails but the first entry stays cached with no handles and cannot be
evicted by drops. -/
theorem cache_get_error_leak_witness :
    (getRun (fun u _ => u == "a") ⟨[], fun _ => 0, 0⟩ [("a", none), ("b", none)]).2 = none
    ∧ ∀ p ∈ [(("a" : String), (none : Option Nat))], ∃ e,
        alookup (getRun (fun u _ => u == "a") ⟨[], fun _ => 0, 0⟩
            [("a", none), ("b", none)]).1.map p.1 = some e
        ∧ (getRun (fun u _ => u == "a") ⟨[], fun _ => 0, 0⟩
            [("a", none), ("b", none)]).1.handles e = 0
        ∧ (∀ u' e', u' ≠ p.1 →
            alookup (dropHandle (getRun (fun u _ => u == "a") ⟨[], fun _ => 0, 0⟩
              [("a", none), ("b", none)]).1 u' e').map p.1 = some e)
        ∧ alookup (dropHandle (getRun (fun u _ => u == "a") ⟨[], fun _ => 0, 0⟩
            [("a", none), ("b", none)]).1 p.1 e).map p.1 = some e :=
  cache_get_error_leak (fun u _ => u == "a") ⟨[], fun _ => 0, 0⟩ [("a", none), ("b", none)]
    [("a", none)] "b" none [] (fun _ _ => rfl) rfl (by decide) (by decide)

/-! ## Theorems: LogicImgPool id allocation (C4) -/

theorem firstFreeAux_notMem (s : Finset Nat) :
    ∀ fuel n, (∃ m, m < fuel ∧ (n + m) ∉ s) → firstFreeAux s fuel n ∉ s := by
  intro fuel
  induction fuel with
  | zero =>
      intro n ⟨m, hm, _⟩
      exact absurd hm (Nat.not_lt_zero m)
  | succ fuel ih =>
      intro n ⟨m, hm, hnot⟩
      rw [firstFreeAux]
      by_cases hn : n ∈ s
      · rw [if_pos hn]
        apply ih
        match m, hm, hnot with
        | 0, _, hnot => exact absurd hn (by simpa using hnot)
        | m + 1, hm, hnot =>
            exact ⟨m, Nat.lt_of_succ_lt_succ hm, by
              have : n + 1 + m = n + (m + 1) := by omega
              rw [this]
              exact hnot⟩
      · rw [if_neg hn]
        exact hn

theorem firstFreeAux_min (s : Finset Nat) :
    ∀ fuel n, n ≤ firstFreeAux s fuel n
      ∧ ∀ j, n ≤ j → j < firstFreeAux s fuel n → j ∈ s := by
  intro fuel
  induction fuel with
  | zero =>
      intro n
      rw [firstFreeAux]
      exact ⟨Nat.le_refl n, fun j hj hj' => absurd (Nat.lt_of_le_of_lt hj hj')
        (Nat.lt_irrefl n)⟩
  | succ fuel ih =>
      intro n
      rw [firstFreeAux]
      by_cases hn : n ∈ s
      · rw [if_pos hn]
        obtain ⟨hle, hmin⟩ := ih (n + 1)
        refine ⟨Nat.le_trans (Nat.le_succ n) hle, ?_⟩
        intro j hj hj'
        rcases Nat.lt_or_ge j (n + 1) with h | h
        · have : j = n := by omega
          rw [this]
          exact hn
        · exact hmin j h hj'
      · rw [if_neg hn]
        exact ⟨Nat.le_refl n, fun j hj hj' => absurd (Nat.lt_of_le_of_lt hj hj')
          (Nat.lt_irrefl n)⟩

theorem exists_unused (s : Finset Nat) : ∃ m, m < s.card + 1 ∧ m ∉ s := by
  by_contra hc
  push_neg at hc
  have hsub : Finset.range (s.card + 1) ⊆ s := by
    intro m hm
    exact hc m (Finset.mem_range.mp hm)
  have := Finset.card_le_card hsub
  rw [Finset.card_range] at this
  omega

theorem firstFree_spec (s : Finset Nat) :
    firstFree s ∉ s ∧ ∀ m < firstFree s, m ∈ s := by
  constructor
  · apply firstFreeAux_notMem
    obtain ⟨m, hm, hnot⟩ := exists_unused s
    exact ⟨m, hm, by simpa using hnot⟩
  · intro m hm
    exact (firstFreeAux_min s (s.card + 1) 0).2 m (Nat.zero_le m) hm

theorem allocStep_inv (s : PoolState) (h : PoolInv s) : PoolInv (allocStep s).1 := by
  obtain ⟨hnd, hsub⟩ := h
  have hfree := (firstFree_spec s.used).1
  constructor
  · rw [allocStep]
    simp only
    rw [List.nodup_append]
    refine ⟨hnd, List.nodup_singleton _, ?_⟩
    intro a ha hb
    rw [List.mem_singleton] at hb
    subst hb
    exact hfree (hsub _ ha)
  · intro id hid
    rw [allocStep] at hid ⊢
    simp only at hid ⊢
    rcases List.mem_append.mp hid with h | h
    · exact Finset.mem_insert_of_mem (hsub id h)
    · rw [List.mem_singleton] at h
      subst h
      exact Finset.mem_insert_self _ _

theorem dropStep_inv (s : PoolState) (id : Nat) (h : PoolInv s) :
    PoolInv (dropStep s id) := by
  obtain ⟨hnd, hsub⟩ := h
  rw [dropStep]
  by_cases hin : id ∈ s.live
  · rw [if_pos hin]
    constructor
    · exact hnd.erase id
    · intro id' hid'
      have h' := (List.Nodup.mem_erase_iff hnd).mp hid'
      exact Finset.mem_erase.mpr ⟨h'.1, hsub id' h'.2⟩
  · rw [if_neg hin]
    exact ⟨hnd, hsub⟩

theorem runPool_inv (ops : List PoolOp) :
    ∀ s : PoolState, PoolInv s → PoolInv (runPool s ops) := by
  induction ops with
  | nil =>
      intro s h
      exact h
  | cons op rest ih =>
      intro s h
      cases op with
      | alloc => exact ih (allocStep s).1 (allocStep_inv s h)
      | drop id => exact ih (dropStep s id) (dropStep_inv s id h)

/--
Claim C4: in every state reachable from the fresh pool, no two live
`OpaqueImg` handles share an id; `alloc` reserves the lowest id not
currently in use (first-fit: the returned id is unused and everything
below it is used) and the returned handle's id differs from every live
handle's; dropping a live handle removes its id from the used set
(freeing it for reuse), removes it from the live handles, and sends an
unload-image message for it.
-/
theorem pool_id_invariants (ops : List PoolOp) :
    (runPool initPool ops).live.Nodup
    ∧ (∀ s : PoolState, (∀ id ∈ s.live, id ∈ s.used) →
        ((allocStep s).2 ∉ s.used
          ∧ (∀ m < (allocStep s).2, m ∈ s.used)
          ∧ (allocStep s).2 ∉ s.live
          ∧ (allocStep s).1.live = s.live ++ [(allocStep s).2]
          ∧ (allocStep s).1.msgs = s.msgs ++ [PoolMsg.load (allocStep s).2]))
    ∧ (∀ s : PoolState, ∀ id, s.live.Nodup → id ∈ s.live →
        (id ∉ (dropStep s id).used
          ∧ (dropStep s id).msgs = s.msgs ++ [PoolMsg.unload id]
          ∧ id ∉ (dropStep s id).live)) := by
  refine ⟨?_, ?_, ?_⟩
  · exact (runPool_inv ops initPool
      ⟨List.nodup_nil, fun id h => absurd h (List.not_mem_nil id)⟩).1
  · intro s hsub
    obtain ⟨hfree, hmin⟩ := firstFree_spec s.used
    exact ⟨hfree, hmin, fun hc => hfree (hsub _ hc), rfl, rfl⟩
  · intro s id hnd hin
    rw [dropStep, if_pos hin]
    refine ⟨Finset.not_mem_erase id s.used, rfl, ?_⟩
    intro hc
    exact ((List.Nodup.mem_erase_iff hnd).mp hc).1 rfl

/-- Witness for C4: replay `[alloc, alloc, drop 0, alloc]` (live ids end
up `[1, 0]`, reusing the freed id 0 first-fit), and check alloc / drop at
concrete states. -/
theorem pool_id_invariants_witness :
    (runPool initPool [PoolOp.alloc, PoolOp.alloc, PoolOp.drop 0, PoolOp.alloc]).live.Nodup
    ∧ ((allocStep ⟨{1}, [1], []⟩).2 ∉ ({1} : Finset Nat)
        ∧ (∀ m < (allocStep (⟨{1}, [1], []⟩ : PoolState)).2, m ∈ ({1} : Finset Nat))
        ∧ (allocStep (⟨{1}, [1], []⟩ : PoolState)).2 ∉ [1]
        ∧ (allocStep (⟨{1}, [1], []⟩ : PoolState)).1.live
            = [1] ++ [(allocStep (⟨{1}, [1], []⟩ : PoolState)).2]
        ∧ (allocStep (⟨{1}, [1], []⟩ : PoolState)).1.msgs
            = [] ++ [PoolMsg.load (allocStep (⟨{1}, [1], []⟩ : PoolState)).2])
    ∧ (0 ∉ (dropStep ⟨{0, 1}, [0, 1], []⟩ 0).used
        ∧ (dropStep (⟨{0, 1}, [0, 1], []⟩ : PoolState) 0).msgs = [] ++ [PoolMsg.unload 0]
        ∧ 0 ∉ (dropStep (⟨{0, 1}, [0, 1], []⟩ : PoolState) 0).live) :=
  ⟨(pool_id_invariants [PoolOp.alloc, PoolOp.alloc, PoolOp.drop 0, PoolOp.alloc]).1,
   (pool_id_invariants []).2.1 ⟨{1}, [1], []⟩ (by decide),
   (pool_id_invariants []).2.2 ⟨{0, 1}, [0, 1], []⟩ 0 (by decide) (by decide)⟩

/-! ## Theorems: text wrapping width bound (C7) -/

theorem wordWidth_sconcat {α : Type} [LinearOrderedAddCommMonoid α] (charW : Char → α)
    (ws : List String) :
    wordWidth charW (sconcat ws) = (ws.map (wordWidth charW)).sum := by
  rw [wordWidth, sconcat]
  show (((ws.map String.data).flatten).map charW).sum = _
  rw [List.map_flatten, List.sum_flatten, List.map_map, List.map_map]
  rfl

theorem sconcat_singleton (w : String) : sconcat [w] = w := by
  rw [sconcat]
  show String.mk (w.data ++ []) = w
  rw [List.append_nil]

theorem wrapStep_inv {α : Type} [LinearOrderedAddCommMonoid α] (charW : Char → α)
    (width : α) (segs : List (String × BreakRule)) (hw : 0 ≤ width)
    (s : WrapState α) (seg : String × BreakRule) (hseg : seg ∈ segs)
    (hinv : WrapInv charW width segs s) :
    WrapInv charW width segs (wrapStep charW width s seg) := by
  obtain ⟨hpos, hsingle, hfrom, hlines⟩ := hinv
  rw [wrapStep]
  by_cases hover : width < s.pos + wordWidth charW (stripNl seg.1)
  · rw [if_pos hover]
    have hgood : GoodLine charW width segs (sconcat s.words) := by
      rcases le_or_lt s.pos width with hle | hgt
      · left
        rw [wordWidth_sconcat, ← hpos]
        exact hle
      · obtain ⟨w, hw'⟩ := hsingle hgt
        right
        have hcw : sconcat s.words = w := by rw [hw', sconcat_singleton]
        constructor
        · rw [hcw]
          have : wordWidth charW w = s.pos := by
            rw [hpos, hw']
            simp
          rw [this]
          exact hgt
        · obtain ⟨sg, hsg, heq⟩ := hfrom w (by rw [hw']; exact List.mem_singleton_self w)
          exact ⟨sg, hsg, by rw [hcw, heq]⟩
    refine ⟨by simp, fun _ => ⟨stripNl seg.1, rfl⟩, ?_, ?_⟩
    · intro w hwmem
      rw [List.mem_singleton] at hwmem
      exact ⟨seg, hseg, hwmem⟩
    · intro l hl
      rcases List.mem_append.mp hl with h | h
      · exact hlines l h
      · rw [List.mem_singleton] at h
        rw [h]
        exact hgood
  · rw [if_neg hover]
    have hle : s.pos + wordWidth charW (stripNl seg.1) ≤ width := not_lt.mp hover
    by_cases hman : seg.2 = BreakRule.mandatory
    · rw [if_pos hman]
      refine ⟨by simp, ?_, ?_, ?_⟩
      · intro h
        exact absurd (lt_of_le_of_lt hw h) (lt_irrefl _)
      · intro w hwmem
        exact absurd hwmem (List.not_mem_nil w)
      · intro l hl
        rcases List.mem_append.mp hl with h | h
        · exact hlines l h
        · rw [List.mem_singleton] at h
          rw [h]
          left
          rw [wordWidth_sconcat, List.map_append, List.sum_append, ← hpos]
          simpa using hle
    · rw [if_neg hman]
      refine ⟨?_, ?_, ?_, hlines⟩
      · rw [List.map_append, List.sum_append, ← hpos]
        simp
      · intro h
        exact absurd (lt_of_lt_of_le h hle).false (by simp)
      · intro w hwmem
        rcases List.mem_append.mp hwmem with h | h
        · exact hfrom w h
        · rw [List.mem_singleton] at h
          exact ⟨seg, hseg, h⟩

theorem wrap_foldl_inv {α : Type} [LinearOrderedAddCommMonoid α] (charW : Char → α)
    (width : α) (segs : List (String × BreakRule)) (hw : 0 ≤ width) :
    ∀ l : List (String × BreakRule), (∀ x ∈ l, x ∈ segs) →
      ∀ s : WrapState α, WrapInv charW width segs s →
        WrapInv charW width segs (l.foldl (wrapStep charW width) s) := by
  intro l
  induction l with
  | nil =>
      intro _ s hinv
      exact hinv
  | cons x rest ih =>
      intro hsub s hinv
      rw [List.foldl_cons]
      exact ih (fun y hy => hsub y (List.mem_cons_of_mem x hy))
        (wrapStep charW width s x)
        (wrapStep_inv charW width segs hw s x (hsub x (List.mem_cons_self x rest)) hinv)

/--
Claim C7: for every segmentation of a text, every width and every
(per-glyph, scale-included) width assignment, every line emitted by
`create_lines` has a summed glyph width not exceeding `width`, with the
single exception of a line consisting of one unbreakable word (one
newline-stripped input segment) that is wider than `width` by itself.
The wrap width is nonnegative, as in the program; glyph advances are
arbitrary.
-/
theorem wrap_width_bound {α : Type} [LinearOrderedAddCommMonoid α] (charW : Char → α)
    (width : α) (segs : List (String × BreakRule)) (hw : 0 ≤ width) :
    ∀ l ∈ createLines charW width segs,
      wordWidth charW l ≤ width
      ∨ (width < wordWidth charW l ∧ ∃ seg ∈ segs, l = stripNl seg.1) := by
  intro l hl
  have hinit : WrapInv charW width (segs ++ [("", BreakRule.mandatory)])
      (⟨[], [], 0⟩ : WrapState α) := by
    refine ⟨by simp, ?_, ?_, ?_⟩
    · intro h
      exact absurd (lt_of_le_of_lt hw h) (lt_irrefl _)
    · intro w hwmem
      exact absurd hwmem (List.not_mem_nil w)
    · intro l' hl'
      exact absurd hl' (List.not_mem_nil l')
  have hfold := wrap_foldl_inv charW width (segs ++ [("", BreakRule.mandatory)]) hw
    (segs ++ [("", BreakRule.mandatory)]) (fun x hx => hx) ⟨[], [], 0⟩ hinit
  have hgood := hfold.2.2.2 l hl
  rcases hgood with h | ⟨hgt, sg, hsg, heq⟩
  · exact Or.inl h
  · rcases List.mem_append.mp hsg with h | h
    · exact Or.inr ⟨hgt, sg, h, heq⟩
    · rw [List.mem_singleton] at h
      subst h
      rw [heq] at hgt
      have : wordWidth charW (stripNl "") = 0 := rfl
      rw [this] at hgt
      exact absurd (lt_of_le_of_lt hw hgt) (lt_irrefl _)

/-- Witness for C7: all-width-1 glyphs, width 2, two segments; the
emitted line `"cd"` satisfies the bound. -/
theorem wrap_width_bound_witness :
    wordWidth (fun _ => (1 : Int)) "cd" ≤ 2
    ∨ (2 < wordWidth (fun _ => (1 : Int)) "cd"
        ∧ ∃ seg ∈ [("ab", BreakRule.allowed), ("cd", BreakRule.mandatory)], "cd" = stripNl seg.1) :=
  wrap_width_bound (fun _ => (1 : Int)) 2 [("ab", BreakRule.allowed), ("cd", BreakRule.mandatory)]
    (by decide) "cd" (by decide)

/-! ## Theorems: the wrap example (C8) -/

/--
Claim C8 (counterexample): with widths satisfying the claim's premise
("from Alice", "Hello", "world" each fit in 100, "Hello world" does
not), the code wraps `"from Alice\nHello world"` into
`["from Alice", "Hello ", "world"]` — the line break opportunity after
`"Hello "` keeps the space on the flushed line — and not into the
claimed `["from Alice", "Hello", "world"]`.
-/
theorem wrap_example_counterexample :
    wordWidth exampleCharW "from Alice" ≤ 100
    ∧ wordWidth exampleCharW "Hello" ≤ 100
    ∧ wordWidth exampleCharW "world" ≤ 100
    ∧ (100 : Int) < wordWidth exampleCharW "Hello world"
    ∧ createLines exampleCharW 100 exampleSegs = ["from Alice", "Hello ", "world"]
    ∧ createLines exampleCharW 100 exampleSegs ≠ ["from Alice", "Hello", "world"] := by
  decide

/--
Claim C8 (amended): under the claim's premise, wrapping
`"from Alice\nHello world"` at width 100 yields exactly the three lines
`["from Alice", "Hello ", "world"]`; the space preceding a break
opportunity stays at the end of the line it flushes.
-/
theorem wrap_example_amended :
    createLines exampleCharW 100 exampleSegs = ["from Alice", "Hello ", "world"] := by
  decide

/-! ## Theorems: render-thread drain (C9) -/

theorem drainSpec_cons_nonstop (s : UiState) (m : UiMsg) (rest : List UiMsg)
    (hm : isStopper m = false) : drainSpec s (m :: rest) = drainSpec (applyMsg s m) rest := by
  rw [drainSpec, drainSpec]
  simp [List.takeWhile_cons, List.dropWhile_cons, hm]

theorem drainMsgs_eq_spec (q : List UiMsg) : ∀ s, drainMsgs s q = drainSpec s q := by
  induction q with
  | nil =>
      intro s
      rfl
  | cons m rest ih =>
      intro s
      cases m with
      | loadImage id outcome =>
          exact (ih (applyMsg s (UiMsg.loadImage id outcome))).trans
            (drainSpec_cons_nonstop s (UiMsg.loadImage id outcome) rest rfl).symm
      | unloadImage id =>
          exact (ih (applyMsg s (UiMsg.unloadImage id))).trans
            (drainSpec_cons_nonstop s (UiMsg.unloadImage id) rest rfl).symm
      | setScreen scr =>
          exact (ih (applyMsg s (UiMsg.setScreen scr))).trans
            (drainSpec_cons_nonstop s (UiMsg.setScreen scr) rest rfl).symm
      | keyboard r =>
          exact (ih (applyMsg s (UiMsg.keyboard r))).trans
            (drainSpec_cons_nonstop s (UiMsg.keyboard r) rest rfl).symm
      | wordWrap r =>
          exact (ih (applyMsg s (UiMsg.wordWrap r))).trans
            (drainSpec_cons_nonstop s (UiMsg.wordWrap r) rest rfl).symm
      | flush => rfl
      | quit => rfl

/--
Claim C9: in each frame, `Ui::iteration` applies the pending mailbox
messages in FIFO send order — the effects folded over the longest
stopper-free prefix — popping without blocking until the queue is empty
or a flush message is popped, with the messages after the popped stopper
left queued for the next frame; and it returns false exactly when a quit
message was popped (the first stopper of the queue is a quit) or the
outer platform loop says to stop, true otherwise.
-/
theorem ui_iteration_drain (aptOk : Bool) (s : UiState) (q : List UiMsg) :
    iteration aptOk s q = if aptOk then drainSpec s q else (false, s, q) := by
  cases aptOk
  · rfl
  · rw [iteration, if_pos rfl]
    rw [if_pos rfl]
    exact drainMsgs_eq_spec q s

end Toot3d
